import Mathlib

/-!
# Verification of `rodio`'s sample conversion module (`src/conversions/sample.rs`)

This file gives a shallow embedding of the `Sample` trait implementations for
`u16`, `i16` and `f32`, and of the `DataConverter` iterator adapter, and proves
the specified properties about them.

Embedding conventions:
* `u16` values are natural numbers (`ℕ`) smaller than `2^16`; `i16` values are
  integers (`ℤ`) in `[-2^15, 2^15)`; machine `i32` arithmetic is modelled over
  `ℤ` with explicit range checks.
* Rust's checked arithmetic semantics for `i32` (overflow and division by zero
  are program errors / panics) is modelled by `Option ℤ`: `none` means the
  computation has no defined in-range result.
* `f32` samples are modelled as exact rationals (`ℚ`); floating-point rounding
  is idealised away, which matches the spec's real-valued reading of the
  contracts.
* `as` casts that reinterpret bits (`u32 as i32`, `i32 as u16`, `i32 as i16`)
  are modelled exactly, with two's-complement wrapping.
-/

namespace Rodio

/-! ## Machine integer model -/

/-- The checked `i32` range: `some x` iff `x` fits in a 32-bit signed integer.
Models Rust's overflow check (debug semantics: overflow is a panic). -/
def chkI32 (x : ℤ) : Option ℤ :=
  if -(2 ^ 31) ≤ x ∧ x < 2 ^ 31 then some x else none

/-- Checked `i32` subtraction. -/
def subI32 (a b : ℤ) : Option ℤ := chkI32 (a - b)

/-- Checked `i32` multiplication. -/
def mulI32 (a b : ℤ) : Option ℤ := chkI32 (a * b)

/-- Checked `i32` addition. -/
def addI32 (a b : ℤ) : Option ℤ := chkI32 (a + b)

/-- Checked `i32` division: Rust `/` on `i32` truncates toward zero, panics on
division by zero, and overflows only at `i32::MIN / -1` (caught by the range
check). -/
def divI32 (a b : ℤ) : Option ℤ :=
  if b = 0 then none else chkI32 (a.tdiv b)

/-- The cast `u32 as i32`: two's-complement reinterpretation. -/
def u32_as_i32 (n : ℕ) : ℤ :=
  if n < 2 ^ 31 then (n : ℤ) else (n : ℤ) - 2 ^ 32

/-- The cast `i32 as u16`: keep the low 16 bits, read unsigned. -/
def i32_as_u16 (x : ℤ) : ℕ := (x % 2 ^ 16).toNat

/-- The cast `i32 as i16`: keep the low 16 bits, read as two's complement. -/
def i32_as_i16 (x : ℤ) : ℤ := (x + 2 ^ 15) % 2 ^ 16 - 2 ^ 15

/-! ## `Sample::lerp`

Both integer implementations compute the same `i32` expression
`a + (b - a) * n / d` (with `first`/`second` widened to `i32` and
`numerator`/`denominator` cast from `u32`), differing only in the final cast
back to the sample type.  `lerpCoreI32` is that shared expression. -/

/-- The `i32` expression `first as i32 + (second as i32 - first as i32)
 * numerator as i32 / denominator as i32`, with every intermediate operation
checked. -/
def lerpCoreI32 (a b : ℤ) (numerator denominator : ℕ) : Option ℤ :=
  (subI32 b a).bind fun diff =>
    (mulI32 diff (u32_as_i32 numerator)).bind fun prod =>
      (divI32 prod (u32_as_i32 denominator)).bind fun quot =>
        addI32 a quot

/-- `<u16 as Sample>::lerp`:
`(a + (b - a) * n / d) as u16` over `i32` arithmetic. -/
def lerpU16 (first second : ℕ) (numerator denominator : ℕ) : Option ℕ :=
  (lerpCoreI32 first second numerator denominator).map i32_as_u16

/-- `<i16 as Sample>::lerp`:
`(first as i32 + (second as i32 - first as i32) * numerator as i32
 / denominator as i32) as i16`. -/
def lerpI16 (first second : ℤ) (numerator denominator : ℕ) : Option ℤ :=
  (lerpCoreI32 first second numerator denominator).map i32_as_i16

/-- `<f32 as Sample>::lerp`: `first + (second - first) * numerator as f32
 / denominator as f32`, with `f32` modelled as `ℚ`.  A zero denominator gives
no well-defined rational result (IEEE `NaN`/`inf`), modelled as `none`. -/
def lerpF32 (first second : ℚ) (numerator denominator : ℕ) : Option ℚ :=
  if denominator = 0 then none
  else some (first + (second - first) * (numerator : ℚ) / (denominator : ℚ))

/-- The exact value computed by the integer `lerp` implementations when no
machine check fires. -/
def lerpVal (a b : ℤ) (n d : ℕ) : ℤ := a + ((b - a) * (n : ℤ)).tdiv (d : ℤ)

/-! ## Zero values and sample-type conversions

`Sample::ZERO_VALUE` is `DaspSample::EQUILIBRIUM` and the conversions applied
by `DataConverter` are `dasp_sample::FromSample` instances.  The `dasp_sample`
crate is an external dependency whose code is not part of this repository, so
these are modelled from the spec. -/

/-- Modelled from the spec: the `i16` zero value (silence is `0` for `i16`;
`dasp_sample::EQUILIBRIUM`, external crate). -/
def ZERO_VALUE_i16 : ℤ := 0

/-- Modelled from the spec: the `u16` zero value (the midpoint offset of the
unsigned encoding, chosen so that conversions map zero values to zero values
exactly; `dasp_sample::EQUILIBRIUM`, external crate). -/
def ZERO_VALUE_u16 : ℕ := 2 ^ 15

/-- Modelled from the spec: the `f32` zero value (silence is `0.0`). -/
def ZERO_VALUE_f32 : ℚ := 0

/-- Modelled from the spec: `dasp_sample` conversion `i16 → u16` (external
crate): shift by the unsigned midpoint; exact and lossless. -/
def i16_to_u16 (x : ℤ) : ℕ := (x + 2 ^ 15).toNat

/-- Modelled from the spec: `dasp_sample` conversion `u16 → i16` (external
crate): shift by the unsigned midpoint; exact and lossless. -/
def u16_to_i16 (x : ℕ) : ℤ := (x : ℤ) - 2 ^ 15

/-- Modelled from the spec: `dasp_sample` conversion `i16 → f32` (external
crate): normalize to the unit amplitude range. -/
def i16_to_f32 (x : ℤ) : ℚ := (x : ℚ) / 2 ^ 15

/-- Modelled from the spec: `dasp_sample` conversion `u16 → f32` (external
crate): remove the unsigned offset, then normalize. -/
def u16_to_f32 (x : ℕ) : ℚ := ((x : ℚ) - 2 ^ 15) / 2 ^ 15

/-- Clamp an integer to `[lo, hi]`. -/
def clampI (lo hi x : ℤ) : ℤ := max lo (min hi x)

/-- Modelled from the spec: `dasp_sample` conversion `f32 → i16` (external
crate): scale to the 16-bit range and round to the nearest representable
output value. -/
def f32_to_i16 (q : ℚ) : ℤ := clampI (-(2 ^ 15)) (2 ^ 15 - 1) (round (q * 2 ^ 15))

/-- Modelled from the spec: `dasp_sample` conversion `f32 → u16` (external
crate): as `f32 → i16`, then add the unsigned offset. -/
def f32_to_u16 (q : ℚ) : ℕ := (f32_to_i16 q + 2 ^ 15).toNat

/-! ## `Sample::saturating_add`

`saturating_add` is `self.add_amp(other.to_signed_sample())`, where `add_amp`
and `to_signed_sample` come from the external `dasp_sample` crate; the spec
describes the combination as addition that clamps instead of wrapping. -/

/-- Modelled from the spec: `to_signed_sample` for `u16` (external crate):
reinterpret in the signed domain by removing the midpoint offset. -/
def to_signed_sample_u16 (x : ℕ) : ℤ := (x : ℤ) - 2 ^ 15

/-- Modelled from the spec: `i16::saturating_add` — signed addition clamped to
the `i16` range (no wraparound). -/
def saturating_add_i16 (a b : ℤ) : ℤ := clampI (-(2 ^ 15)) (2 ^ 15 - 1) (a + b)

/-- Modelled from the spec: `u16::saturating_add` — add in the signed domain
(`add_amp` with the other sample's `to_signed_sample`), clamping instead of
wrapping, then convert back to the unsigned encoding. -/
def saturating_add_u16 (a b : ℕ) : ℕ :=
  i16_to_u16 (clampI (-(2 ^ 15)) (2 ^ 15 - 1) (u16_to_i16 a + to_signed_sample_u16 b))

/-- Modelled from the spec: `f32::saturating_add` — plain addition; every
rational is representable in the `ℚ` model, so no clamping occurs. -/
def saturating_add_f32 (a b : ℚ) : ℚ := a + b

/-! ## `f32::is_zero` -/

/-- `f32::EPSILON`, the machine epsilon of single precision, exactly `2⁻²³`. -/
def EPSILON_f32 : ℚ := 1 / 2 ^ 23

/-- `<f32 as Sample>::is_zero`:
`2.0 * (self - ZERO_VALUE).abs() <= EPSILON * (self.abs() + ZERO_VALUE.abs())`. -/
def is_zero_f32 (s : ℚ) : Bool :=
  2 * |s - ZERO_VALUE_f32| ≤ EPSILON_f32 * (|s| + |ZERO_VALUE_f32|)

/-! ## `DataConverter`

A Rust `Iterator` is modelled as a state type `σ` with a `next` function and a
`size_hint`; `DataConverter<I, O>` wraps an inner iterator together with the
`O: FromSample<I::Item>` conversion function. -/

/-- A pull-based iterator: `next` returns the next item and successor state,
or `none` when exhausted; `size_hint` mirrors Rust's `(lower, upper)` bounds. -/
structure Iter (σ α : Type) where
  next : σ → Option (α × σ)
  size_hint : σ → ℕ × Option ℕ

/-- `DataConverter<I, O>`: the inner iterator plus the sample conversion
applied to each item. -/
structure DataConverter (σ α β : Type) where
  input : Iter σ α
  from_sample : α → β

/-- `impl Iterator for DataConverter — fn next`:
`self.input.next().map(|s| DaspSample::from_sample(s))`. -/
def DataConverter.next (c : DataConverter σ α β) (s : σ) : Option (β × σ) :=
  (c.input.next s).map fun xs => (c.from_sample xs.1, xs.2)

/-- `impl Iterator for DataConverter — fn size_hint`: `self.input.size_hint()`. -/
def DataConverter.size_hint (c : DataConverter σ α β) (s : σ) : ℕ × Option ℕ :=
  c.input.size_hint s

/-- The converter, repackaged as an iterator over the same state type. -/
def DataConverter.toIter (c : DataConverter σ α β) : Iter σ β :=
  ⟨c.next, c.size_hint⟩

/-- Drain an iterator into the list of items it yields, with explicit fuel. -/
def runIter (it : Iter σ α) : ℕ → σ → List α
  | 0, _ => []
  | fuel + 1, s =>
    match it.next s with
    | none => []
    | some (x, s') => x :: runIter it fuel s'

/-- The canonical exact-length iterator: state is the list of remaining items,
`size_hint` is the exact remaining length. -/
def listIter (α : Type) : Iter (List α) α where
  next
    | [] => none
    | x :: xs => some (x, xs)
  size_hint l := (l.length, some l.length)

/-! ## Helper lemmas about the machine-integer model -/

theorem chkI32_eq_some {x : ℤ} (h1 : -(2 ^ 31) ≤ x) (h2 : x < 2 ^ 31) :
    chkI32 x = some x := by
  unfold chkI32
  rw [if_pos (And.intro h1 h2)]

theorem u32_as_i32_of_le {n : ℕ} (h : n ≤ 2 ^ 31 - 1) : u32_as_i32 n = (n : ℤ) := by
  have h' : n < 2 ^ 31 := by omega
  unfold u32_as_i32
  rw [if_pos h']

theorem i32_as_u16_of_range {x : ℤ} (h1 : 0 ≤ x) (h2 : x < 2 ^ 16) :
    (i32_as_u16 x : ℤ) = x := by
  unfold i32_as_u16
  rw [Int.emod_eq_of_lt h1 h2, Int.toNat_of_nonneg h1]

theorem i32_as_i16_of_range {x : ℤ} (h1 : -(2 ^ 15) ≤ x) (h2 : x < 2 ^ 15) :
    i32_as_i16 x = x := by
  unfold i32_as_i16
  omega

/-- Truncating division by a positive integer is monotone in the dividend. -/
theorem tdiv_le_tdiv_of_le {x y d : ℤ} (hd : 0 < d) (h : x ≤ y) :
    x.tdiv d ≤ y.tdiv d := by
  rcases le_or_lt 0 x with hx | hx
  · have hy : 0 ≤ y := le_trans hx h
    rw [Int.tdiv_eq_ediv hx hd.le, Int.tdiv_eq_ediv hy hd.le]
    exact Int.ediv_le_ediv hd h
  · rcases le_or_lt 0 y with hy | hy
    · have h1 : x.tdiv d ≤ 0 := by
        have hnx : 0 ≤ (-x).tdiv d := Int.tdiv_nonneg (by omega) hd.le
        have : (-x).tdiv d = -(x.tdiv d) := Int.neg_tdiv x d
        omega
      have h2 : 0 ≤ y.tdiv d := Int.tdiv_nonneg hy hd.le
      omega
    · have e1 : (-x).tdiv d = -(x.tdiv d) := Int.neg_tdiv x d
      have e2 : (-y).tdiv d = -(y.tdiv d) := Int.neg_tdiv y d
      have hnx : 0 ≤ -y := by omega
      have hny : 0 ≤ -x := by omega
      have := Int.ediv_le_ediv hd (show -y ≤ -x by omega)
      rw [← Int.tdiv_eq_ediv hnx hd.le, ← Int.tdiv_eq_ediv hny hd.le] at this
      omega

/-- The truncated remainder lies strictly between `-d` and `d`. -/
theorem tmod_bounds (x d : ℤ) (hd : 0 < d) : -d < x.tmod d ∧ x.tmod d < d := by
  have hu : x.tmod d < d := Int.tmod_lt_of_pos x hd
  rcases le_or_lt 0 x with hx | hx
  · have := Int.tmod_nonneg d hx
    omega
  · have h1 := Int.tmod_add_tdiv x d
    have h2 := Int.tmod_add_tdiv (-x) d
    rw [Int.neg_tdiv] at h2
    have h4 : 0 ≤ (-x).tmod d := Int.tmod_nonneg d (by omega)
    have h5 : (-x).tmod d < d := Int.tmod_lt_of_pos (-x) hd
    have key : (-x).tmod d = -(x.tmod d) := by linarith
    omega

/-- Truncating division recovers the dividend up to an error smaller than the
divisor. -/
theorem tdiv_sub_bound (x d : ℤ) (hd : 0 < d) : |x - d * x.tdiv d| < d := by
  have h := Int.tmod_add_tdiv x d
  have hb := tmod_bounds x d hd
  rw [abs_lt]
  omega

/-- In exact arithmetic, `x.tdiv d` is within distance `1` of the true
quotient `x / d`. -/
theorem tdiv_close_q (x d : ℤ) (hd : 0 < d) :
    |((x.tdiv d : ℤ) : ℚ) - (x : ℚ) / (d : ℚ)| < 1 := by
  have hb := tdiv_sub_bound x d hd
  have hdq : (0 : ℚ) < (d : ℚ) := by exact_mod_cast hd
  have key : ((x.tdiv d : ℤ) : ℚ) - (x : ℚ) / (d : ℚ)
      = -(((x - d * x.tdiv d : ℤ) : ℚ) / (d : ℚ)) := by
    push_cast
    field_simp
    ring
  rw [key, abs_neg, abs_div, abs_of_pos hdq, div_lt_one hdq]
  calc |((x - d * x.tdiv d : ℤ) : ℚ)| = ((|x - d * x.tdiv d| : ℤ) : ℚ) := by
        rw [Int.cast_abs]
    _ < (d : ℚ) := by exact_mod_cast hb

/-- With `0 ≤ n ≤ d`, the interpolated value stays between the endpoints. -/
theorem lerpVal_bounds (a b : ℤ) (n d : ℕ) (hd : 0 < d) (hn : n ≤ d) :
    min a b ≤ lerpVal a b n d ∧ lerpVal a b n d ≤ max a b := by
  have hdz : (0 : ℤ) < (d : ℤ) := by exact_mod_cast hd
  have hdne : (d : ℤ) ≠ 0 := by omega
  have hnn : (0 : ℤ) ≤ (n : ℤ) := by positivity
  have hnd : (n : ℤ) ≤ (d : ℤ) := by exact_mod_cast hn
  unfold lerpVal
  rcases le_total a b with hab | hab
  · have hdiff : 0 ≤ b - a := by omega
    have hq0 : 0 ≤ ((b - a) * (n : ℤ)).tdiv d :=
      Int.tdiv_nonneg (mul_nonneg hdiff hnn) hdz.le
    have hmul : (b - a) * (n : ℤ) ≤ (b - a) * (d : ℤ) :=
      mul_le_mul_of_nonneg_left hnd hdiff
    have hq1 : ((b - a) * (n : ℤ)).tdiv d ≤ ((b - a) * (d : ℤ)).tdiv d :=
      tdiv_le_tdiv_of_le hdz hmul
    rw [Int.mul_tdiv_cancel (b - a) hdne] at hq1
    omega
  · have hdiff : b - a ≤ 0 := by omega
    have hq0 : ((b - a) * (n : ℤ)).tdiv d ≤ 0 := by
      have : 0 ≤ (-(b - a)) * (n : ℤ) := mul_nonneg (by omega) hnn
      have h1 : 0 ≤ ((-(b - a)) * (n : ℤ)).tdiv d := Int.tdiv_nonneg this hdz.le
      have h2 : ((-(b - a)) * (n : ℤ)) = -((b - a) * (n : ℤ)) := by ring
      rw [h2, Int.neg_tdiv] at h1
      omega
    have hmul : (b - a) * (d : ℤ) ≤ (b - a) * (n : ℤ) :=
      mul_le_mul_of_nonpos_left hnd hdiff
    have hq1 : ((b - a) * (d : ℤ)).tdiv d ≤ ((b - a) * (n : ℤ)).tdiv d :=
      tdiv_le_tdiv_of_le hdz hmul
    rw [Int.mul_tdiv_cancel (b - a) hdne] at hq1
    omega

/-- When both samples are in 16-bit range (`u16` or `i16`), the denominator is
positive and fits `i32`, `n ≤ d`, and the product `(b - a) * n` fits `i32`,
the shared `i32` expression evaluates without any overflow or division error. -/
theorem lerpCoreI32_eq_some (a b : ℤ) (n d : ℕ)
    (ha1 : -(2 ^ 15) ≤ a) (ha2 : a < 2 ^ 16) (hb1 : -(2 ^ 15) ≤ b) (hb2 : b < 2 ^ 16)
    (hd : 0 < d) (hd31 : d ≤ 2 ^ 31 - 1) (hn : n ≤ d)
    (hov : (b - a).natAbs * n ≤ 2 ^ 31 - 1) :
    lerpCoreI32 a b n d = some (lerpVal a b n d) := by
  have hdz : (0 : ℤ) < (d : ℤ) := by exact_mod_cast hd
  have hn31 : n ≤ 2 ^ 31 - 1 := le_trans hn hd31
  have hprod : ((b - a) * (n : ℤ)).natAbs ≤ 2 ^ 31 - 1 := by
    rw [Int.natAbs_mul, Int.natAbs_ofNat]
    exact hov
  have hquot : (((b - a) * (n : ℤ)).tdiv (d : ℤ)).natAbs ≤ 2 ^ 31 - 1 := by
    rw [Int.natAbs_tdiv]
    exact le_trans (Nat.div_le_self _ _) hprod
  have hb1' := (lerpVal_bounds a b n d hd hn).1
  have hb2' := (lerpVal_bounds a b n d hd hn).2
  unfold lerpCoreI32 lerpVal at *
  rw [subI32, chkI32_eq_some (by omega) (by omega), Option.some_bind]
  rw [u32_as_i32_of_le hn31, u32_as_i32_of_le hd31]
  rw [mulI32, chkI32_eq_some (by omega) (by omega), Option.some_bind]
  rw [divI32, if_neg (by omega), chkI32_eq_some (by omega) (by omega),
    Option.some_bind]
  rw [addI32, chkI32_eq_some (by omega) (by omega)]

/-- `lerpU16` succeeds under the same conditions, returning the exact value. -/
theorem lerpU16_eq_some (a b n d : ℕ) (ha : a < 2 ^ 16) (hb : b < 2 ^ 16)
    (hd : 0 < d) (hd31 : d ≤ 2 ^ 31 - 1) (hn : n ≤ d)
    (hov : ((b : ℤ) - (a : ℤ)).natAbs * n ≤ 2 ^ 31 - 1) :
    ∃ r : ℕ, lerpU16 a b n d = some r ∧
      (r : ℤ) = lerpVal (a : ℤ) (b : ℤ) n d ∧ r < 2 ^ 16 := by
  have hcore := lerpCoreI32_eq_some (a : ℤ) (b : ℤ) n d (by omega)
    (by exact_mod_cast ha) (by omega) (by exact_mod_cast hb) hd hd31 hn hov
  have hbnd := lerpVal_bounds (a : ℤ) (b : ℤ) n d hd hn
  have h0 : 0 ≤ lerpVal (a : ℤ) (b : ℤ) n d := by
    have : (0 : ℤ) ≤ min (a : ℤ) (b : ℤ) := le_min (by positivity) (by positivity)
    omega
  have hlt : lerpVal (a : ℤ) (b : ℤ) n d < 2 ^ 16 := by
    have : max (a : ℤ) (b : ℤ) < 2 ^ 16 :=
      max_lt (by exact_mod_cast ha) (by exact_mod_cast hb)
    omega
  refine ⟨(lerpVal (a : ℤ) (b : ℤ) n d).toNat, ?_, ?_, ?_⟩
  · unfold lerpU16
    rw [hcore]
    have := i32_as_u16_of_range h0 hlt
    simp only [Option.map_some']
    congr 1
    omega
  · rw [Int.toNat_of_nonneg h0]
  · omega

/-- `lerpI16` succeeds under the same conditions, returning the exact value. -/
theorem lerpI16_eq_some (x y : ℤ) (n d : ℕ)
    (hx1 : -(2 ^ 15) ≤ x) (hx2 : x < 2 ^ 15) (hy1 : -(2 ^ 15) ≤ y) (hy2 : y < 2 ^ 15)
    (hd : 0 < d) (hd31 : d ≤ 2 ^ 31 - 1) (hn : n ≤ d)
    (hov : (y - x).natAbs * n ≤ 2 ^ 31 - 1) :
    lerpI16 x y n d = some (lerpVal x y n d) ∧
      -(2 ^ 15) ≤ lerpVal x y n d ∧ lerpVal x y n d < 2 ^ 15 := by
  have hcore := lerpCoreI32_eq_some x y n d hx1 (by omega) hy1 (by omega) hd hd31 hn hov
  have hbnd := lerpVal_bounds x y n d hd hn
  have h0 : -(2 ^ 15) ≤ lerpVal x y n d := by
    have : -(2 ^ 15) ≤ min x y := le_min hx1 hy1
    omega
  have hlt : lerpVal x y n d < 2 ^ 15 := by
    have : max x y < 2 ^ 15 := max_lt hx2 hy2
    omega
  refine ⟨?_, h0, hlt⟩
  unfold lerpI16
  rw [hcore]
  simp only [Option.map_some']
  rw [i32_as_i16_of_range h0 hlt]

/-- A zero denominator makes the integer `lerp` undefined (division by zero),
whatever the numerator: some machine check fires. -/
theorem lerpCoreI32_zero_den (a b : ℤ) (n : ℕ)
    (hab1 : -(2 ^ 31) ≤ b - a) (hab2 : b - a < 2 ^ 31) :
    lerpCoreI32 a b n 0 = none := by
  unfold lerpCoreI32
  rw [subI32, chkI32_eq_some hab1 hab2, Option.some_bind]
  cases hmul : mulI32 (b - a) (u32_as_i32 n) with
  | none => rfl
  | some prod =>
      rw [Option.some_bind]
      have hz : u32_as_i32 0 = 0 := by decide
      rw [divI32, hz, if_pos rfl]
      rfl

/-- Interpolating with numerator `0` returns the first endpoint exactly. -/
theorem lerpVal_zero (a b : ℤ) (d : ℕ) : lerpVal a b 0 d = a := by
  unfold lerpVal
  simp [Int.zero_tdiv]

/-- Interpolating with numerator `= d` returns the second endpoint exactly. -/
theorem lerpVal_full (a b : ℤ) (d : ℕ) (hd : 0 < d) : lerpVal a b d d = b := by
  unfold lerpVal
  rw [Int.mul_tdiv_cancel (b - a) (by exact_mod_cast hd.ne.symm : (d : ℤ) ≠ 0)]
  ring

/-- The interpolated value is monotone in the numerator, increasing when
`a ≤ b` and decreasing when `b ≤ a`. -/
theorem lerpVal_monotone (a b : ℤ) (n m d : ℕ) (hd : 0 < d) (hnm : n ≤ m) :
    (a ≤ b → lerpVal a b n d ≤ lerpVal a b m d) ∧
    (b ≤ a → lerpVal a b m d ≤ lerpVal a b n d) := by
  have hdz : (0 : ℤ) < (d : ℤ) := by exact_mod_cast hd
  have hnm' : (n : ℤ) ≤ (m : ℤ) := by exact_mod_cast hnm
  constructor
  · intro hab
    have hmul : (b - a) * (n : ℤ) ≤ (b - a) * (m : ℤ) :=
      mul_le_mul_of_nonneg_left hnm' (by omega)
    have := tdiv_le_tdiv_of_le hdz hmul
    unfold lerpVal
    omega
  · intro hab
    have hmul : (b - a) * (m : ℤ) ≤ (b - a) * (n : ℤ) :=
      mul_le_mul_of_nonpos_left hnm' (by omega)
    have := tdiv_le_tdiv_of_le hdz hmul
    unfold lerpVal
    omega

/-- The interpolated value is within distance `1` (one integer quantization
step) of the exact affine combination `a * (1 - n / d) + b * (n / d)`. -/
theorem lerpVal_close (a b : ℤ) (n d : ℕ) (hd : 0 < d) :
    |((lerpVal a b n d : ℤ) : ℚ) -
      ((a : ℚ) * (1 - (n : ℚ) / (d : ℚ)) + (b : ℚ) * ((n : ℚ) / (d : ℚ)))| < 1 := by
  have hdz : (0 : ℤ) < (d : ℤ) := by exact_mod_cast hd
  have hdq : ((d : ℤ) : ℚ) ≠ 0 := by
    exact_mod_cast hdz.ne.symm
  have h := tdiv_close_q ((b - a) * (n : ℤ)) (d : ℤ) hdz
  have e : ((lerpVal a b n d : ℤ) : ℚ) -
      ((a : ℚ) * (1 - (n : ℚ) / (d : ℚ)) + (b : ℚ) * ((n : ℚ) / (d : ℚ)))
      = ((((b - a) * (n : ℤ)).tdiv (d : ℤ) : ℤ) : ℚ)
        - (((b - a) * (n : ℤ) : ℤ) : ℚ) / ((d : ℤ) : ℚ) := by
    unfold lerpVal
    push_cast
    field_simp
    ring
  rw [e]
  exact h

/-! ## Claim theorems -/

/-- C1, counterexample: the endpoint identity `lerp(a, b, d, d) = b` does not
hold for every denominator `d`: at `a = 0`, `b = 2`, `d = 2^30` the `u16`
implementation's product `(b - a) * n = 2^31` overflows `i32`, so the result
is not `b` (debug builds panic; a release build's wrapped value is `65534`). -/
theorem lerp_endpoints_cex :
    lerpU16 0 2 (2 ^ 30) (2 ^ 30) = none ∧
      lerpU16 0 2 (2 ^ 30) (2 ^ 30) ≠ some 2 := by
  exact ⟨by decide, by decide⟩

/-- C1 (amended): for every sample encoding (`u16`, `i16`, `f32`), samples
`a, b` and denominator `d` with `0 < d ≤ 2^31 - 1` such that, for the integer
encodings, `|b - a| * d` fits in `i32`, `lerp` satisfies both endpoint
identities `lerp(a, b, 0, d) = a` and `lerp(a, b, d, d) = b`. -/
theorem lerp_endpoints (a b : ℕ) (x y : ℤ) (p q : ℚ) (d : ℕ)
    (ha : a < 2 ^ 16) (hb : b < 2 ^ 16)
    (hx1 : -(2 ^ 15) ≤ x) (hx2 : x < 2 ^ 15)
    (hy1 : -(2 ^ 15) ≤ y) (hy2 : y < 2 ^ 15)
    (hd : 0 < d) (hd31 : d ≤ 2 ^ 31 - 1)
    (hovu : ((b : ℤ) - (a : ℤ)).natAbs * d ≤ 2 ^ 31 - 1)
    (hovi : (y - x).natAbs * d ≤ 2 ^ 31 - 1) :
    lerpU16 a b 0 d = some a ∧ lerpU16 a b d d = some b ∧
    lerpI16 x y 0 d = some x ∧ lerpI16 x y d d = some y ∧
    lerpF32 p q 0 d = some p ∧ lerpF32 p q d d = some q := by
  have hdq : ((d : ℕ) : ℚ) ≠ 0 := Nat.cast_ne_zero.mpr hd.ne'
  refine ⟨?_, ?_, ?_, ?_, ?_, ?_⟩
  · obtain ⟨r, e, v, _⟩ :=
      lerpU16_eq_some a b 0 d ha hb hd hd31 (Nat.zero_le d) (by simp)
    rw [lerpVal_zero] at v
    have hr : r = a := by exact_mod_cast v
    rw [e, hr]
  · obtain ⟨r, e, v, _⟩ := lerpU16_eq_some a b d d ha hb hd hd31 le_rfl hovu
    rw [lerpVal_full _ _ _ hd] at v
    have hr : r = b := by exact_mod_cast v
    rw [e, hr]
  · obtain ⟨e, _, _⟩ :=
      lerpI16_eq_some x y 0 d hx1 hx2 hy1 hy2 hd hd31 (Nat.zero_le d) (by simp)
    rw [e, lerpVal_zero]
  · obtain ⟨e, _, _⟩ := lerpI16_eq_some x y d d hx1 hx2 hy1 hy2 hd hd31 le_rfl hovi
    rw [e, lerpVal_full _ _ _ hd]
  · unfold lerpF32
    rw [if_neg hd.ne']
    norm_num
  · unfold lerpF32
    rw [if_neg hd.ne']
    congr 1
    field_simp

/-- C1, witness: the amended endpoint identities at concrete inputs. -/
theorem lerp_endpoints_witness :
    lerpU16 3 7 0 2 = some 3 ∧ lerpU16 3 7 2 2 = some 7 ∧
    lerpI16 (-5) 11 0 2 = some (-5) ∧ lerpI16 (-5) 11 2 2 = some 11 ∧
    lerpF32 (1 / 2) (3 / 4) 0 2 = some (1 / 2) ∧
    lerpF32 (1 / 2) (3 / 4) 2 2 = some (3 / 4) :=
  lerp_endpoints 3 7 (-5) 11 (1 / 2) (3 / 4) 2 (by decide) (by decide) (by decide)
    (by decide) (by decide) (by decide) (by decide) (by decide) (by decide)
    (by decide)

/-- C9, counterexample: the claimed precondition (`d > 0` and `|b - a| * n`
representable in `i32`) does not make the integer `lerp` safe: at `a = 1`,
`b = 2`, `n = 2^31 - 1`, `d = 1` the product fits `i32` but the final addition
`a + (b - a) * n / d = 2^31` overflows `i32`. -/
theorem lerp_safety_cex : lerpU16 1 2 (2 ^ 31 - 1) 1 = none := by decide

/-- C9 (amended): with `0 < d ≤ 2^31 - 1`, `n ≤ d` and `|b - a| * n` fitting
`i32`, every internal operation of the integer `lerp` implementations stays in
range — no division-by-zero or overflow check fires and the final cast is
value-preserving; with `d = 0` the computation is undefined (division by zero)
for every numerator. -/
theorem lerp_integer_safety (a b : ℕ) (x y : ℤ) (n d : ℕ)
    (ha : a < 2 ^ 16) (hb : b < 2 ^ 16)
    (hx1 : -(2 ^ 15) ≤ x) (hx2 : x < 2 ^ 15)
    (hy1 : -(2 ^ 15) ≤ y) (hy2 : y < 2 ^ 15)
    (hd : 0 < d) (hd31 : d ≤ 2 ^ 31 - 1) (hn : n ≤ d)
    (hovu : ((b : ℤ) - (a : ℤ)).natAbs * n ≤ 2 ^ 31 - 1)
    (hovi : (y - x).natAbs * n ≤ 2 ^ 31 - 1) :
    (∃ r : ℕ, lerpU16 a b n d = some r ∧ r < 2 ^ 16) ∧
    (∃ r : ℤ, lerpI16 x y n d = some r ∧ -(2 ^ 15) ≤ r ∧ r < 2 ^ 15) ∧
    (∀ m : ℕ, lerpU16 a b m 0 = none) ∧
    (∀ m : ℕ, lerpI16 x y m 0 = none) := by
  refine ⟨?_, ?_, ?_, ?_⟩
  · obtain ⟨r, e, _, hlt⟩ := lerpU16_eq_some a b n d ha hb hd hd31 hn hovu
    exact ⟨r, e, hlt⟩
  · obtain ⟨e, h1, h2⟩ := lerpI16_eq_some x y n d hx1 hx2 hy1 hy2 hd hd31 hn hovi
    exact ⟨_, e, h1, h2⟩
  · intro m
    unfold lerpU16
    rw [lerpCoreI32_zero_den _ _ _ (by omega) (by omega)]
    rfl
  · intro m
    unfold lerpI16
    rw [lerpCoreI32_zero_den _ _ _ (by omega) (by omega)]
    rfl

/-- C9, witness: the amended safety statement at concrete inputs. -/
theorem lerp_integer_safety_witness :
    (∃ r : ℕ, lerpU16 7 100 1 4 = some r ∧ r < 2 ^ 16) ∧
    (∃ r : ℤ, lerpI16 (-7) 100 1 4 = some r ∧ -(2 ^ 15) ≤ r ∧ r < 2 ^ 15) ∧
    (∀ m : ℕ, lerpU16 7 100 m 0 = none) ∧
    (∀ m : ℕ, lerpI16 (-7) 100 m 0 = none) :=
  lerp_integer_safety 7 100 (-7) 100 1 4 (by decide) (by decide) (by decide)
    (by decide) (by decide) (by decide) (by decide) (by decide) (by decide)
    (by decide) (by decide)

/-- C3: for the integer encodings, with `0 ≤ n ≤ d`, `0 < d` and all machine
values in `i32` range, the interpolated value read in the float domain is
within one quantization step (`2⁻¹⁵`, the spacing of adjacent 16-bit samples
on the normalized amplitude range) of the exact value `a*(1-t) + b*t`. -/
theorem lerp_quantization (a b : ℕ) (x y : ℤ) (n d : ℕ)
    (ha : a < 2 ^ 16) (hb : b < 2 ^ 16)
    (hx1 : -(2 ^ 15) ≤ x) (hx2 : x < 2 ^ 15)
    (hy1 : -(2 ^ 15) ≤ y) (hy2 : y < 2 ^ 15)
    (hd : 0 < d) (hd31 : d ≤ 2 ^ 31 - 1) (hn : n ≤ d)
    (hovu : ((b : ℤ) - (a : ℤ)).natAbs * n ≤ 2 ^ 31 - 1)
    (hovi : (y - x).natAbs * n ≤ 2 ^ 31 - 1) :
    (∃ r : ℕ, lerpU16 a b n d = some r ∧
      |u16_to_f32 r - (u16_to_f32 a * (1 - (n : ℚ) / (d : ℚ))
        + u16_to_f32 b * ((n : ℚ) / (d : ℚ)))| ≤ 1 / 2 ^ 15) ∧
    (∃ r : ℤ, lerpI16 x y n d = some r ∧
      |i16_to_f32 r - (i16_to_f32 x * (1 - (n : ℚ) / (d : ℚ))
        + i16_to_f32 y * ((n : ℚ) / (d : ℚ)))| ≤ 1 / 2 ^ 15) := by
  constructor
  · obtain ⟨r, e, v, _⟩ := lerpU16_eq_some a b n d ha hb hd hd31 hn hovu
    refine ⟨r, e, ?_⟩
    have hclose := lerpVal_close (a : ℤ) (b : ℤ) n d hd
    have hv : ((r : ℕ) : ℚ) = ((lerpVal (a : ℤ) (b : ℤ) n d : ℤ) : ℚ) := by
      exact_mod_cast v
    have ed : u16_to_f32 r - (u16_to_f32 a * (1 - (n : ℚ) / (d : ℚ))
        + u16_to_f32 b * ((n : ℚ) / (d : ℚ)))
        = (((r : ℕ) : ℚ) - (((a : ℕ) : ℚ) * (1 - (n : ℚ) / (d : ℚ))
            + ((b : ℕ) : ℚ) * ((n : ℚ) / (d : ℚ)))) / 2 ^ 15 := by
      unfold u16_to_f32
      ring
    rw [ed, abs_div, abs_of_pos (by norm_num : (0 : ℚ) < 2 ^ 15)]
    have habs : |((r : ℕ) : ℚ) - (((a : ℕ) : ℚ) * (1 - (n : ℚ) / (d : ℚ))
        + ((b : ℕ) : ℚ) * ((n : ℚ) / (d : ℚ)))| ≤ 1 := by
      rw [hv]
      have e2 : (((a : ℕ) : ℚ)) = (((a : ℕ) : ℤ) : ℚ) := by push_cast; rfl
      have e3 : (((b : ℕ) : ℚ)) = (((b : ℕ) : ℤ) : ℚ) := by push_cast; rfl
      rw [e2, e3]
      exact le_of_lt hclose
    gcongr

  · obtain ⟨e, h1, h2⟩ := lerpI16_eq_some x y n d hx1 hx2 hy1 hy2 hd hd31 hn hovi
    refine ⟨lerpVal x y n d, e, ?_⟩
    have hclose := lerpVal_close x y n d hd
    have ed : i16_to_f32 (lerpVal x y n d) - (i16_to_f32 x * (1 - (n : ℚ) / (d : ℚ))
        + i16_to_f32 y * ((n : ℚ) / (d : ℚ)))
        = (((lerpVal x y n d : ℤ) : ℚ) - ((x : ℚ) * (1 - (n : ℚ) / (d : ℚ))
            + (y : ℚ) * ((n : ℚ) / (d : ℚ)))) / 2 ^ 15 := by
      unfold i16_to_f32
      ring
    have habs : |((lerpVal x y n d : ℤ) : ℚ) - ((x : ℚ) * (1 - (n : ℚ) / (d : ℚ))
        + (y : ℚ) * ((n : ℚ) / (d : ℚ)))| ≤ 1 := le_of_lt hclose
    rw [ed, abs_div, abs_of_pos (by norm_num : (0 : ℚ) < 2 ^ 15)]
    gcongr


/-- C3, witness: the quantization bound at concrete inputs. -/
theorem lerp_quantization_witness :
    (∃ r : ℕ, lerpU16 10 20 1 3 = some r ∧
      |u16_to_f32 r - (u16_to_f32 10 * (1 - (1 : ℚ) / (3 : ℚ))
        + u16_to_f32 20 * ((1 : ℚ) / (3 : ℚ)))| ≤ 1 / 2 ^ 15) ∧
    (∃ r : ℤ, lerpI16 (-10) 20 1 3 = some r ∧
      |i16_to_f32 r - (i16_to_f32 (-10) * (1 - (1 : ℚ) / (3 : ℚ))
        + i16_to_f32 20 * ((1 : ℚ) / (3 : ℚ)))| ≤ 1 / 2 ^ 15) :=
  lerp_quantization 10 20 (-10) 20 1 3 (by decide) (by decide) (by decide)
    (by decide) (by decide) (by decide) (by decide) (by decide) (by decide)
    (by decide) (by decide)

/-- C4: for every encoding, with the samples, the denominator
(`0 < d ≤ 2^31 - 1`) and the no-overflow bound `|b - a| * d ≤ 2^31 - 1` fixed,
the map `n ↦ lerp(a, b, n, d)` is monotone on `0 ≤ n ≤ d`: non-decreasing when
`a ≤ b` and non-increasing when `b ≤ a`. -/
theorem lerp_monotone (a b : ℕ) (x y : ℤ) (p q : ℚ) (n m d : ℕ)
    (ha : a < 2 ^ 16) (hb : b < 2 ^ 16)
    (hx1 : -(2 ^ 15) ≤ x) (hx2 : x < 2 ^ 15)
    (hy1 : -(2 ^ 15) ≤ y) (hy2 : y < 2 ^ 15)
    (hd : 0 < d) (hd31 : d ≤ 2 ^ 31 - 1) (hnm : n ≤ m) (hmd : m ≤ d)
    (hovu : ((b : ℤ) - (a : ℤ)).natAbs * d ≤ 2 ^ 31 - 1)
    (hovi : (y - x).natAbs * d ≤ 2 ^ 31 - 1) :
    (∃ rn rm : ℕ, lerpU16 a b n d = some rn ∧ lerpU16 a b m d = some rm ∧
      (a ≤ b → rn ≤ rm) ∧ (b ≤ a → rm ≤ rn)) ∧
    (∃ rn rm : ℤ, lerpI16 x y n d = some rn ∧ lerpI16 x y m d = some rm ∧
      (x ≤ y → rn ≤ rm) ∧ (y ≤ x → rm ≤ rn)) ∧
    (∃ rn rm : ℚ, lerpF32 p q n d = some rn ∧ lerpF32 p q m d = some rm ∧
      (p ≤ q → rn ≤ rm) ∧ (q ≤ p → rm ≤ rn)) := by
  have hnd : n ≤ d := le_trans hnm hmd
  have hovun : ((b : ℤ) - (a : ℤ)).natAbs * n ≤ 2 ^ 31 - 1 :=
    le_trans (Nat.mul_le_mul_left _ hnd) hovu
  have hovum : ((b : ℤ) - (a : ℤ)).natAbs * m ≤ 2 ^ 31 - 1 :=
    le_trans (Nat.mul_le_mul_left _ hmd) hovu
  have hovin : (y - x).natAbs * n ≤ 2 ^ 31 - 1 :=
    le_trans (Nat.mul_le_mul_left _ hnd) hovi
  have hovim : (y - x).natAbs * m ≤ 2 ^ 31 - 1 :=
    le_trans (Nat.mul_le_mul_left _ hmd) hovi
  refine ⟨?_, ?_, ?_⟩
  · obtain ⟨rn, en, vn, _⟩ := lerpU16_eq_some a b n d ha hb hd hd31 hnd hovun
    obtain ⟨rm, em, vm, _⟩ := lerpU16_eq_some a b m d ha hb hd hd31 hmd hovum
    have hmono := lerpVal_monotone (a : ℤ) (b : ℤ) n m d hd hnm
    refine ⟨rn, rm, en, em, ?_, ?_⟩
    · intro hab
      have := hmono.1 (by exact_mod_cast hab)
      omega
    · intro hab
      have := hmono.2 (by exact_mod_cast hab)
      omega
  · obtain ⟨en, vn1, vn2⟩ := lerpI16_eq_some x y n d hx1 hx2 hy1 hy2 hd hd31 hnd hovin
    obtain ⟨em, vm1, vm2⟩ := lerpI16_eq_some x y m d hx1 hx2 hy1 hy2 hd hd31 hmd hovim
    have hmono := lerpVal_monotone x y n m d hd hnm
    exact ⟨_, _, en, em, hmono.1, hmono.2⟩
  · have hdq : (0 : ℚ) < (d : ℚ) := by exact_mod_cast hd
    have hnmq : (n : ℚ) ≤ (m : ℚ) := by exact_mod_cast hnm
    refine ⟨p + (q - p) * (n : ℚ) / (d : ℚ), p + (q - p) * (m : ℚ) / (d : ℚ),
      ?_, ?_, ?_, ?_⟩
    · unfold lerpF32
      rw [if_neg hd.ne']
    · unfold lerpF32
      rw [if_neg hd.ne']
    · intro hpq
      have : (q - p) * (n : ℚ) / (d : ℚ) ≤ (q - p) * (m : ℚ) / (d : ℚ) := by
        gcongr
        linarith
      linarith
    · intro hqp
      have : (p - q) * (n : ℚ) / (d : ℚ) ≤ (p - q) * (m : ℚ) / (d : ℚ) := by
        gcongr
        linarith
      have e1 : (q - p) * (n : ℚ) / (d : ℚ) = -((p - q) * (n : ℚ) / (d : ℚ)) := by
        ring
      have e2 : (q - p) * (m : ℚ) / (d : ℚ) = -((p - q) * (m : ℚ) / (d : ℚ)) := by
        ring
      rw [e1, e2]
      linarith

/-- C4, witness: monotonicity at concrete inputs. -/
theorem lerp_monotone_witness :
    (∃ rn rm : ℕ, lerpU16 100 500 1 4 = some rn ∧ lerpU16 100 500 3 4 = some rm ∧
      (100 ≤ 500 → rn ≤ rm) ∧ (500 ≤ 100 → rm ≤ rn)) ∧
    (∃ rn rm : ℤ, lerpI16 200 (-100) 1 4 = some rn ∧
      lerpI16 200 (-100) 3 4 = some rm ∧
      ((200 : ℤ) ≤ -100 → rn ≤ rm) ∧ ((-100 : ℤ) ≤ 200 → rm ≤ rn)) ∧
    (∃ rn rm : ℚ, lerpF32 0 1 1 4 = some rn ∧ lerpF32 0 1 3 4 = some rm ∧
      ((0 : ℚ) ≤ 1 → rn ≤ rm) ∧ ((1 : ℚ) ≤ 0 → rm ≤ rn)) :=
  lerp_monotone 100 500 200 (-100) 0 1 1 3 4 (by decide) (by decide) (by decide)
    (by decide) (by decide) (by decide) (by decide) (by decide) (by decide)
    (by decide) (by decide) (by decide)

/-- C2: `saturating_add` combines two samples without wraparound: the result
equals the true amplitude-domain sum clamped to the encoding's representable
range and always stays in range (so the operation neither panics nor wraps);
for `f32` (exact rationals) it is the plain sum. -/
theorem saturating_add_clamps :
    (∀ a b : ℤ, -(2 ^ 15) ≤ a → a < 2 ^ 15 → -(2 ^ 15) ≤ b → b < 2 ^ 15 →
      saturating_add_i16 a b = max (-(2 ^ 15)) (min (2 ^ 15 - 1) (a + b)) ∧
      -(2 ^ 15) ≤ saturating_add_i16 a b ∧ saturating_add_i16 a b < 2 ^ 15) ∧
    (∀ a b : ℕ, a < 2 ^ 16 → b < 2 ^ 16 →
      (saturating_add_u16 a b : ℤ)
        = max 0 (min (2 ^ 16 - 1) ((a : ℤ) + (b : ℤ) - 2 ^ 15)) ∧
      saturating_add_u16 a b < 2 ^ 16) ∧
    (∀ a b : ℚ, saturating_add_f32 a b = a + b) := by
  refine ⟨?_, ?_, ?_⟩
  · intro a b ha1 ha2 hb1 hb2
    unfold saturating_add_i16 clampI
    refine ⟨rfl, ?_, ?_⟩ <;> omega
  · intro a b ha hb
    unfold saturating_add_u16 i16_to_u16 u16_to_i16 to_signed_sample_u16 clampI
    constructor <;> omega
  · intro a b
    rfl

/-- C2, witness: saturation at concrete inputs near the range edges. -/
theorem saturating_add_clamps_witness :
    (saturating_add_i16 30000 10000
        = max (-(2 ^ 15)) (min (2 ^ 15 - 1) (30000 + 10000)) ∧
      -(2 ^ 15) ≤ saturating_add_i16 30000 10000 ∧
      saturating_add_i16 30000 10000 < 2 ^ 15) ∧
    ((saturating_add_u16 60000 40000 : ℤ)
        = max 0 (min (2 ^ 16 - 1) ((60000 : ℤ) + (40000 : ℤ) - 2 ^ 15)) ∧
      saturating_add_u16 60000 40000 < 2 ^ 16) ∧
    saturating_add_f32 (1 / 2) (3 / 4) = 1 / 2 + 3 / 4 :=
  ⟨saturating_add_clamps.1 30000 10000 (by decide) (by decide) (by decide)
      (by decide),
   saturating_add_clamps.2.1 60000 40000 (by decide) (by decide),
   saturating_add_clamps.2.2 (1 / 2) (3 / 4)⟩

/-- C6: each pairwise conversion among `i16`, `u16` and `f32` maps the zero
value exactly to the zero value, in both directions. -/
theorem zero_value_conversions :
    i16_to_u16 ZERO_VALUE_i16 = ZERO_VALUE_u16 ∧
    u16_to_i16 ZERO_VALUE_u16 = ZERO_VALUE_i16 ∧
    i16_to_f32 ZERO_VALUE_i16 = ZERO_VALUE_f32 ∧
    f32_to_i16 ZERO_VALUE_f32 = ZERO_VALUE_i16 ∧
    u16_to_f32 ZERO_VALUE_u16 = ZERO_VALUE_f32 ∧
    f32_to_u16 ZERO_VALUE_f32 = ZERO_VALUE_u16 := by
  refine ⟨by decide, by decide, ?_, ?_, ?_, ?_⟩
  · unfold i16_to_f32 ZERO_VALUE_i16 ZERO_VALUE_f32
    norm_num
  · unfold f32_to_i16 ZERO_VALUE_f32 ZERO_VALUE_i16 clampI
    norm_num
  · unfold u16_to_f32 ZERO_VALUE_u16 ZERO_VALUE_f32
    norm_num
  · unfold f32_to_u16 f32_to_i16 ZERO_VALUE_f32 ZERO_VALUE_u16 clampI
    norm_num
    decide

/-- C7: converting a sample to another encoding and back recovers a value
within one quantization step (`2⁻¹⁵` in the normalized float domain): the
`i16 ↔ u16` and integer `→ f32 →` integer round trips are exact, the
`f32 →` integer `→ f32` round trips (for samples in the encoding's unit
amplitude range) are within one step, and the zero value round-trips exactly
in every direction. -/
theorem conversion_round_trip :
    (∀ x : ℤ, -(2 ^ 15) ≤ x → x < 2 ^ 15 → u16_to_i16 (i16_to_u16 x) = x) ∧
    (∀ x : ℕ, x < 2 ^ 16 → i16_to_u16 (u16_to_i16 x) = x) ∧
    (∀ x : ℤ, -(2 ^ 15) ≤ x → x < 2 ^ 15 → f32_to_i16 (i16_to_f32 x) = x) ∧
    (∀ x : ℕ, x < 2 ^ 16 → f32_to_u16 (u16_to_f32 x) = x) ∧
    (∀ q : ℚ, |q| ≤ 1 → |i16_to_f32 (f32_to_i16 q) - q| ≤ 1 / 2 ^ 15) ∧
    (∀ q : ℚ, |q| ≤ 1 → |u16_to_f32 (f32_to_u16 q) - q| ≤ 1 / 2 ^ 15) ∧
    i16_to_f32 (f32_to_i16 ZERO_VALUE_f32) = ZERO_VALUE_f32 ∧
    u16_to_f32 (f32_to_u16 ZERO_VALUE_f32) = ZERO_VALUE_f32 := by
  have hstep : ∀ q : ℚ, |q| ≤ 1 → |i16_to_f32 (f32_to_i16 q) - q| ≤ 1 / 2 ^ 15 := by
    intro q hq
    have hq1 := (abs_le.mp hq).1
    have hq2 := (abs_le.mp hq).2
    set y := q * 2 ^ 15 with hy
    have hy1 : -(2 ^ 15 : ℚ) ≤ y := by
      rw [hy]
      linarith
    have hy2 : y ≤ (2 ^ 15 : ℚ) := by
      rw [hy]
      linarith
    have hz : |y - (round y : ℚ)| ≤ 1 / 2 := abs_sub_round y
    have hz1 := (abs_le.mp hz).1
    have hz2 := (abs_le.mp hz).2
    have hzlo : -(2 ^ 15) ≤ round y := by
      have h1 : ((-(2 ^ 15) - 1 : ℤ) : ℚ) < (round y : ℚ) := by
        push_cast
        linarith
      have h2 : (-(2 ^ 15) - 1 : ℤ) < round y := by exact_mod_cast h1
      omega
    have hzhi : round y ≤ 2 ^ 15 := by
      have h1 : (round y : ℚ) < ((2 ^ 15 + 1 : ℤ) : ℚ) := by
        push_cast
        linarith
      have h2 : round y < (2 ^ 15 + 1 : ℤ) := by exact_mod_cast h1
      omega
    have key : |((f32_to_i16 q : ℤ) : ℚ) - y| ≤ 1 := by
      rcases le_or_lt (round y) (2 ^ 15 - 1) with hc | hc
      · have hr : f32_to_i16 q = round y := by
          unfold f32_to_i16 clampI
          rw [← hy]
          omega
        rw [hr, abs_sub_comm]
        exact le_trans hz (by norm_num)
      · have hz16 : round y = 2 ^ 15 := by omega
        have hr : f32_to_i16 q = 2 ^ 15 - 1 := by
          unfold f32_to_i16 clampI
          rw [← hy]
          omega
        have hylo : (2 ^ 15 : ℚ) - 1 / 2 ≤ y := by
          have e16 : ((round y : ℤ) : ℚ) = ((2 ^ 15 : ℤ) : ℚ) := by
            exact_mod_cast hz16
          push_cast at e16
          linarith
        rw [hr, abs_le]
        constructor
        · push_cast
          linarith
        · push_cast
          linarith
    have e : i16_to_f32 (f32_to_i16 q) - q
        = (((f32_to_i16 q : ℤ) : ℚ) - y) / 2 ^ 15 := by
      unfold i16_to_f32
      rw [hy]
      ring
    rw [e, abs_div, abs_of_pos (by norm_num : (0 : ℚ) < 2 ^ 15)]
    gcongr
  have heq : ∀ q : ℚ, u16_to_f32 (f32_to_u16 q) = i16_to_f32 (f32_to_i16 q) := by
    intro q
    have hnn : 0 ≤ f32_to_i16 q + 2 ^ 15 := by
      unfold f32_to_i16 clampI
      omega
    have e0 : ((f32_to_i16 q + 2 ^ 15).toNat : ℤ) = f32_to_i16 q + 2 ^ 15 :=
      Int.toNat_of_nonneg hnn
    have e : (((f32_to_i16 q + 2 ^ 15).toNat : ℕ) : ℚ)
        = ((f32_to_i16 q : ℤ) : ℚ) + 2 ^ 15 := by
      exact_mod_cast congrArg (fun z : ℤ => (z : ℚ)) e0
    unfold u16_to_f32 f32_to_u16 i16_to_f32
    rw [e]
    ring
  refine ⟨?_, ?_, ?_, ?_, hstep, ?_, ?_, ?_⟩
  · intro x h1 h2
    unfold u16_to_i16 i16_to_u16
    omega
  · intro x h
    unfold i16_to_u16 u16_to_i16
    omega
  · intro x h1 h2
    have e : ((x : ℚ) / 2 ^ 15) * 2 ^ 15 = ((x : ℤ) : ℚ) := by
      field_simp
    unfold f32_to_i16 i16_to_f32
    rw [e, round_intCast]
    unfold clampI
    omega
  · intro x h
    have e : (((x : ℕ) : ℚ) - 2 ^ 15) / 2 ^ 15 * 2 ^ 15 = (((x : ℤ) - 2 ^ 15 : ℤ) : ℚ) := by
      push_cast
      field_simp
      norm_num
    unfold f32_to_u16 f32_to_i16 u16_to_f32
    rw [e, round_intCast]
    unfold clampI
    omega
  · intro q hq
    rw [heq q]
    exact hstep q hq
  · unfold i16_to_f32 f32_to_i16 ZERO_VALUE_f32 clampI
    norm_num
  · unfold u16_to_f32 f32_to_u16 f32_to_i16 ZERO_VALUE_f32 clampI
    norm_num
    rw [show Int.toNat 32768 = 32768 from rfl]
    norm_num

/-- C7, witness: round trips at concrete inputs. -/
theorem conversion_round_trip_witness :
    u16_to_i16 (i16_to_u16 (-12345)) = -12345 ∧
    i16_to_u16 (u16_to_i16 54321) = 54321 ∧
    f32_to_i16 (i16_to_f32 (-12345)) = -12345 ∧
    f32_to_u16 (u16_to_f32 54321) = 54321 ∧
    |i16_to_f32 (f32_to_i16 (1 / 3)) - 1 / 3| ≤ 1 / 2 ^ 15 ∧
    |u16_to_f32 (f32_to_u16 (1 / 3)) - 1 / 3| ≤ 1 / 2 ^ 15 :=
  ⟨conversion_round_trip.1 (-12345) (by decide) (by decide),
   conversion_round_trip.2.1 54321 (by decide),
   conversion_round_trip.2.2.1 (-12345) (by decide) (by decide),
   conversion_round_trip.2.2.2.1 54321 (by decide),
   conversion_round_trip.2.2.2.2.1 (1 / 3) (by rw [abs_le]; constructor <;> norm_num),
   conversion_round_trip.2.2.2.2.2.1 (1 / 3) (by rw [abs_le]; constructor <;> norm_num)⟩

/-- Draining the converter yields the inner iterator's run, mapped through the
conversion function. -/
theorem runIter_toIter_map (it : Iter σ α) (f : α → β) (fuel : ℕ) (s : σ) :
    runIter (DataConverter.toIter (DataConverter.mk it f)) fuel s
      = (runIter it fuel s).map f := by
  induction fuel generalizing s with
  | zero => rfl
  | succ k ih =>
      cases h : it.next s with
      | none => simp [runIter, DataConverter.toIter, DataConverter.next, h]
      | some xs =>
          simp only [runIter, DataConverter.toIter, DataConverter.next, h,
            Option.map_some', List.map_cons]
          exact congrArg (List.cons (f xs.1)) (ih xs.2)

/-- The list-backed iterator yields exactly its list when given enough fuel. -/
theorem runIter_listIter (l : List α) (fuel : ℕ) (h : l.length ≤ fuel) :
    runIter (listIter α) fuel l = l := by
  induction l generalizing fuel with
  | nil => cases fuel <;> simp [runIter, listIter]
  | cons x xs ih =>
      cases fuel with
      | zero => simp at h
      | succ k =>
          have hk : xs.length ≤ k := by simpa using h
          simp only [runIter, listIter, List.cons.injEq, true_and]
          exact ih k hk

/-- C5: each call to `DataConverter::next` pulls exactly one sample from the
inner iterator and returns its conversion; it returns `none` exactly when the
inner iterator does (no other failure exists), and the converter's output
sequence is the inner sequence mapped element-wise through the conversion. -/
theorem dataConverter_map (σ α β : Type) (it : Iter σ α) (f : α → β) :
    (∀ s : σ, (DataConverter.mk it f).next s
      = (it.next s).map fun xs => (f xs.1, xs.2)) ∧
    (∀ s : σ, ((DataConverter.mk it f).next s = none ↔ it.next s = none)) ∧
    (∀ (fuel : ℕ) (s : σ),
      runIter (DataConverter.toIter (DataConverter.mk it f)) fuel s
        = (runIter it fuel s).map f) := by
  refine ⟨fun s => rfl, ?_, fun fuel s => runIter_toIter_map it f fuel s⟩
  intro s
  unfold DataConverter.next
  cases it.next s <;> simp

/-- C8: `DataConverter` reports exactly the inner iterator's length: its
`size_hint` equals the inner `size_hint`, and over an exact-length inner
iterator it yields exactly as many output samples as the inner iterator has. -/
theorem dataConverter_len :
    (∀ (σ α β : Type) (c : DataConverter σ α β) (s : σ),
      c.size_hint s = c.input.size_hint s) ∧
    (∀ (α β : Type) (f : α → β) (l : List α) (fuel : ℕ), l.length ≤ fuel →
      (runIter (DataConverter.toIter (DataConverter.mk (listIter α) f)) fuel
          l).length = l.length ∧
      (DataConverter.mk (listIter α) f).size_hint l = (l.length, some l.length)) := by
  refine ⟨fun σ α β c s => rfl, ?_⟩
  intro α β f l fuel h
  refine ⟨?_, rfl⟩
  rw [runIter_toIter_map, runIter_listIter l fuel h, List.length_map]

/-- C8, witness: the converter over a concrete two-element iterator. -/
theorem dataConverter_len_witness :
    (runIter (DataConverter.toIter (DataConverter.mk (listIter ℕ) (fun n => n + 1)))
        3 [5, 6]).length = ([5, 6] : List ℕ).length ∧
    (DataConverter.mk (listIter ℕ) (fun n => n + 1)).size_hint [5, 6]
      = (([5, 6] : List ℕ).length, some ([5, 6] : List ℕ).length) :=
  dataConverter_len.2 ℕ ℕ (fun n => n + 1) [5, 6] 3 (by decide)

/-- C10: `f32::is_zero` returns `true` exactly on the zero sample: since
`ZERO_VALUE` is `0`, the relative-epsilon comparison degenerates to exact
equality (`2|s| ≤ ε|s|` forces `|s| = 0` because `ε < 2`). -/
theorem is_zero_f32_iff (s : ℚ) : is_zero_f32 s = true ↔ s = 0 := by
  unfold is_zero_f32 ZERO_VALUE_f32 EPSILON_f32
  rw [decide_eq_true_eq]
  constructor
  · intro h
    rw [sub_zero, abs_zero] at h
    have h0 := abs_nonneg s
    have h1 : |s| ≤ 0 := by linarith
    exact abs_eq_zero.mp (le_antisymm h1 h0)
  · intro h
    subst h
    norm_num

end Rodio
